import Mathlib

/-!
Shallow embedding of the LexiVoice document indexing and retrieval core
(`backend/core/document_processor.py` and `backend/core/retriever.py`),
together with theorems settling the specification's claims about it.

Text is modelled as `List Char`.  Python dictionaries holding chunk
metadata are modelled as association lists keyed by the inductive `Key`
type, whose constructors name exactly the string keys occurring in the
source.  Rational numbers stand in for the floating point distances and
similarity scores (the FAISS padding sentinel FLT_MAX becomes the exact
rational 2^128 - 2^104).
-/

attribute [local semireducible] Rat.mul Rat.inv Rat.sub Rat.add

instance {ε α : Type} [DecidableEq ε] [DecidableEq α] : DecidableEq (Except ε α) :=
  fun a b =>
    match a, b with
    | .error e, .error f =>
      match decEq e f with
      | isTrue h => isTrue (by rw [h])
      | isFalse h => isFalse (by intro hc; cases hc; exact h rfl)
    | .error _, .ok _ => isFalse (by intro hc; cases hc)
    | .ok _, .error _ => isFalse (by intro hc; cases hc)
    | .ok x, .ok y =>
      match decEq x y with
      | isTrue h => isTrue (by rw [h])
      | isFalse h => isFalse (by intro hc; cases hc; exact h rfl)

/-- ASCII whitespace, modelling the character class `\s` used by the regular
expressions in `clean_text` and `split_into_chunks` (the corpus handled by
the chunker is ASCII: `clean_text` removes every character outside
`\x20`-`\x7E`). -/
def isPySpace (c : Char) : Bool :=
  c == ' ' || c == '\t' || c == '\n' || c == '\r' || c == '\x0b' || c == '\x0c'

/-- Printable range kept by `clean_text` (the pattern `[^\x20-\x7E]` is
removed by `re.sub`). -/
def isPrintable (c : Char) : Bool :=
  0x20 ≤ c.toNat && c.toNat ≤ 0x7E

/-- Replacement of every maximal whitespace run by a single space, modelling
`re.sub(r'\s+', ' ', text)` in `clean_text`.  The boolean records whether the
previous character belonged to a whitespace run (so only the first character
of a run emits the single replacement space). -/
def collapseAux : Bool → List Char → List Char
  | _, [] => []
  | prevSpace, c :: rest =>
    if isPySpace c then
      if prevSpace then collapseAux true rest
      else ' ' :: collapseAux true rest
    else c :: collapseAux false rest

/-- Model of Python `str.strip()`: whitespace removed from both ends. -/
def stripWs (l : List Char) : List Char :=
  ((l.dropWhile isPySpace).reverse.dropWhile isPySpace).reverse

/-- Model of `DocumentProcessor.clean_text` (document_processor.py lines
85-103): collapse whitespace runs to single spaces, then drop characters
outside the printable range `\x20`-`\x7E`, then strip. -/
def clean_text (text : List Char) : List Char :=
  stripWs ((collapseAux false text).filter isPrintable)

/-- Sentence-ending characters of the split pattern `(?<=[.!?])\s+`. -/
def isSentEnd (c : Char) : Bool :=
  c == '.' || c == '!' || c == '?'

/-- Whether the most recently scanned character (head of the reversed
accumulator) is a sentence end, i.e. whether the lookbehind `(?<=[.!?])`
matches at the current position. -/
def headSentEnd : List Char → Bool
  | [] => false
  | c :: _ => isSentEnd c

/-- Scanner for `re.split(r'(?<=[.!?])\s+', text)`.  The second argument is
`some acc` while collecting the current piece (`acc` holds it reversed) and
`none` while consuming the whitespace run of a separator match. -/
def splitAux : List Char → Option (List Char) → List (List Char)
  | [], some acc => [acc.reverse]
  | [], none => [[]]
  | c :: rest, some acc =>
    if isPySpace c && headSentEnd acc then acc.reverse :: splitAux rest none
    else splitAux rest (some (c :: acc))
  | c :: rest, none =>
    if isPySpace c then splitAux rest none
    else splitAux rest (some [c])

/-- Model of `re.split(r'(?<=[.!?])\s+', text)` (document_processor.py line
129): split at each maximal whitespace run immediately preceded by `.`, `!`
or `?`; the runs themselves are dropped. -/
def splitSentences (text : List Char) : List (List Char) :=
  splitAux text (some [])

/-- Greedy packing loop of `DocumentProcessor.split_into_chunks`
(document_processor.py lines 131-147).  `current` is `current_chunk`;
chunks are emitted stripped, in order. -/
def packAux (size : ℕ) : List Char → List (List Char) → List (List Char)
  | current, [] => if current.isEmpty then [] else [stripWs current]
  | current, s :: rest =>
    if current.length + s.length + 1 ≤ size then
      packAux size (if current.isEmpty then s else current ++ ' ' :: s) rest
    else
      if current.isEmpty then packAux size s rest
      else stripWs current :: packAux size s rest

/-- Model of `DocumentProcessor.split_into_chunks` (document_processor.py
lines 105-149): texts no longer than `size` are returned whole, longer texts
are split into sentences and greedily packed. -/
def split_into_chunks (size : ℕ) (text : List Char) : List (List Char) :=
  if text.length ≤ size then [text]
  else packAux size [] (splitSentences text)

/-- Join a group of sentences with single spaces (used by the spec-side
packing model). -/
def joinSp : List (List Char) → List Char
  | [] => []
  | g :: rest => rest.foldl (fun a s => a ++ ' ' :: s) g

/-- Modelled from the spec: the greedy packing of section 4.1 phrased over
groups of whole sentences — consecutive sentences are packed into the
current group while `currentLength + nextSentenceLength + 1 <= maxSize`;
when the next sentence would exceed `maxSize` the current (non-empty) chunk
is closed and a new group starts with that sentence. -/
def specPackAux (size : ℕ) : List (List Char) → List (List Char) → List (List (List Char))
  | group, [] => if (joinSp group).isEmpty then [] else [group]
  | group, s :: rest =>
    if (joinSp group).length + s.length + 1 ≤ size then
      specPackAux size (group ++ [s]) rest
    else
      if (joinSp group).isEmpty then specPackAux size [s] rest
      else group :: specPackAux size [s] rest

/-- Modelled from the spec: `split(text, maxSize)` per section 4.1 — the
identity on short texts, otherwise sentence groups packed greedily, each
chunk being its group joined with single spaces (trimmed). -/
def splitSpec (size : ℕ) (text : List Char) : List (List Char) :=
  if text.length ≤ size then [text]
  else (specPackAux size [] (splitSentences text)).map (fun g => stripWs (joinSp g))

/-- Dictionary keys appearing in the source's chunk/document dictionaries
(document_processor.py, retriever.py).  Each constructor names the string
key used by the Python code. -/
inductive Key where
  | content
  | text
  | title
  | section_
  | source_url
  | country
  | category
  | chunk_id
  | total_chunks
  | similarity_score
deriving DecidableEq, Repr

/-- Failure raised on a document missing a required field (the `KeyError`
of `doc['content']`, `doc['title']`, `doc['country']`, `doc['category']`;
the spec's `DocumentFormatError`). -/
inductive DocumentFormatError where
  | missingField (name : Key)
deriving DecidableEq, Repr

/-- An input document as loaded from the per-country JSON file.  Fields are
optional: a `none` models a missing dictionary key.  `section_` and
`source_url` are read with `.get` (a default applies), the other four with
`[]` (missing raises). -/
structure PyDocument where
  title : Option (List Char)
  content : Option (List Char)
  section_ : Option (List Char)
  source_url : Option (List Char)
  country : Option (List Char)
  category : Option (List Char)
deriving DecidableEq, Repr

/-- The `DocumentChunk` dataclass (document_processor.py lines 19-34). -/
structure DocumentChunk where
  text : List Char
  title : List Char
  section_ : List Char
  source_url : List Char
  country : List Char
  category : List Char
  chunk_id : ℕ
  total_chunks : ℕ
deriving DecidableEq, Repr

/-- Construction of one `DocumentChunk` inside the loop of
`process_documents` (document_processor.py lines 176-187), with the
required-field accesses in source order: `doc['title']`, then the two
defaulted `get`s, then `doc['country']`, `doc['category']`. -/
def mkChunk (d : PyDocument) (text : List Char) (idx total : ℕ) :
    Except DocumentFormatError DocumentChunk :=
  match d.title with
  | none => .error (.missingField Key.title)
  | some t =>
    match d.country with
    | none => .error (.missingField Key.country)
    | some co =>
      match d.category with
      | none => .error (.missingField Key.category)
      | some ca =>
        .ok { text := text, title := t, section_ := d.section_.getD [],
              source_url := d.source_url.getD [], country := co,
              category := ca, chunk_id := idx, total_chunks := total }

/-- The `for idx, text in enumerate(text_chunks)` loop of
`process_documents`: one `DocumentChunk` per text chunk, `chunk_id`
counting up from `idx`, `total_chunks` fixed. -/
def buildChunks (d : PyDocument) (total : ℕ) :
    ℕ → List (List Char) → Except DocumentFormatError (List DocumentChunk)
  | _, [] => .ok []
  | idx, t :: ts =>
    match mkChunk d t idx total with
    | .error e => .error e
    | .ok c =>
      match buildChunks d total (idx + 1) ts with
      | .error e => .error e
      | .ok cs => .ok (c :: cs)

/-- Processing of a single document inside `process_documents`
(document_processor.py lines 168-187): read `doc['content']`, clean it,
split it, then build the metadata-carrying chunks. -/
def docChunks (size : ℕ) (d : PyDocument) :
    Except DocumentFormatError (List DocumentChunk) :=
  match d.content with
  | none => .error (.missingField Key.content)
  | some content =>
    let tcs := split_into_chunks size (clean_text content)
    buildChunks d tcs.length 0 tcs

/-- Model of `DocumentProcessor.process_documents` (document_processor.py
lines 151-190): documents are processed in order and their chunks
concatenated; the first raised `KeyError` aborts the whole batch. -/
def process_documents (size : ℕ) :
    List PyDocument → Except DocumentFormatError (List DocumentChunk)
  | [] => .ok []
  | d :: ds =>
    match docChunks size d with
    | .error e => .error e
    | .ok cs =>
      match process_documents size ds with
      | .error e => .error e
      | .ok rest => .ok (cs ++ rest)

/-- A document carrying every required field. -/
def wellFormed (d : PyDocument) : Prop :=
  d.content ≠ none ∧ d.title ≠ none ∧ d.country ≠ none ∧ d.category ≠ none

instance (d : PyDocument) : Decidable (wellFormed d) := by
  unfold wellFormed; infer_instance

/-- The field named `f` is one of the required fields and is indeed missing
from `d`. -/
def missingOf (d : PyDocument) (f : Key) : Prop :=
  (f = Key.content ∧ d.content = none) ∨ (f = Key.title ∧ d.title = none) ∨
    (f = Key.country ∧ d.country = none) ∨ (f = Key.category ∧ d.category = none)

/-- Values stored in the chunk-metadata dictionaries. -/
inductive PyVal where
  | s (v : List Char)
  | i (v : ℕ)
  | q (v : ℚ)
deriving DecidableEq, Repr

/-- A Python dictionary with `Key` keys, modelled as an association list in
insertion order (Python dictionaries preserve insertion order). -/
abbrev PyDict := List (Key × PyVal)

/-- Dictionary read: value of the first (only) binding of `k`. -/
def dictGet (d : PyDict) (k : Key) : Option PyVal :=
  (d.find? (fun p => p.1 = k)).map Prod.snd

/-- Dictionary write `d[k] = v`: update in place when the key exists,
append otherwise. -/
def dictSet (d : PyDict) (k : Key) (v : PyVal) : PyDict :=
  if d.any (fun p => p.1 = k) then
    d.map (fun p => if p.1 = k then (k, v) else p)
  else d ++ [(k, v)]

/-- Python list indexing `l[i]`: negative indices wrap from the end;
out-of-range indexing has no value (it raises `IndexError`). -/
def pyGet {α : Type} (l : List α) (i : ℤ) : Option α :=
  if 0 ≤ i then l.get? i.toNat
  else if -(l.length : ℤ) ≤ i then l.get? ((l.length : ℤ) + i).toNat
  else none

/-- The metadata dictionary stored per chunk by `build_index`
(retriever.py lines 105-113).  Note `total_chunks` is not stored. -/
def chunkToDict (c : DocumentChunk) : PyDict :=
  [(Key.text, .s c.text), (Key.title, .s c.title), (Key.section_, .s c.section_),
   (Key.source_url, .s c.source_url), (Key.country, .s c.country),
   (Key.category, .s c.category), (Key.chunk_id, .i c.chunk_id)]

/-- Squared Euclidean distance, the metric of `faiss.IndexFlatL2`. -/
def sqDist (u v : List ℚ) : ℚ :=
  (List.zipWith (fun a b => (a - b) ^ 2) u v).sum

/-- The single-precision float maximum `FLT_MAX` (2^128 - 2^104), the
distance FAISS reports for the padding entries produced when `k` exceeds
the number of stored vectors. -/
def fltMax : ℚ := 340282346638528859811704183484516925440

/-- Ordering of `(distance, ordinal)` pairs used by the FAISS search model:
ascending distance, ties broken by insertion order. -/
def distLe (a b : ℚ × ℤ) : Prop :=
  a.1 < b.1 ∨ (a.1 = b.1 ∧ a.2 ≤ b.2)

instance : DecidableRel distLe := fun _ _ => by unfold distLe; infer_instance

instance : IsTotal (ℚ × ℤ) distLe where
  total a b := by
    unfold distLe
    rcases lt_trichotomy a.1 b.1 with h | h | h
    · exact Or.inl (Or.inl h)
    · rcases le_total a.2 b.2 with h2 | h2
      · exact Or.inl (Or.inr ⟨h, h2⟩)
      · exact Or.inr (Or.inr ⟨h.symm, h2⟩)
    · exact Or.inr (Or.inl h)

instance : IsTrans (ℚ × ℤ) distLe where
  trans a b c hab hbc := by
    unfold distLe at *
    rcases hab with h1 | ⟨h1, h1'⟩ <;> rcases hbc with h2 | ⟨h2, h2'⟩
    · exact Or.inl (h1.trans h2)
    · exact Or.inl (h2 ▸ h1)
    · exact Or.inl (h1 ▸ h2)
    · exact Or.inr ⟨h1.trans h2, h1'.trans h2'⟩

/-- The scored list of stored vectors: ordinal `j` paired with its squared
distance to the query vector. -/
def faissScored (vecs : List (List ℚ)) (q : List ℚ) : List (ℚ × ℤ) :=
  (List.range vecs.length).map (fun j => (sqDist q (vecs.getD j []), (j : ℤ)))

/-- Model of `faiss.IndexFlatL2.search` for one query: the `k` nearest
stored vectors as `(distance, ordinal)` pairs in ascending distance order
(ties by ordinal); when `k` exceeds the number of stored vectors the result
is padded to length `k` with `(FLT_MAX, -1)` sentinel entries. -/
def faissSearch (vecs : List (List ℚ)) (q : List ℚ) (k : ℕ) : List (ℚ × ℤ) :=
  (List.insertionSort distLe (faissScored vecs q)).take k ++
    List.replicate (k - (List.insertionSort distLe (faissScored vecs q)).length)
      (fltMax, -1)

/-- The documented distance-to-similarity conversion `1/(1+distance)`
(retriever.py line 245). -/
def simOf (d : ℚ) : ℚ := 1 / (1 + d)

/-- The result-assembly loop of `FAISSRetriever.search` (retriever.py lines
236-248): for each `(distance, idx)` pair, if `idx < len(self.chunks)` the
metadata dictionary `self.chunks[idx]` is copied, `similarity_score` is
attached, and the copy is appended.  (`idx` may be the FAISS sentinel `-1`,
which also passes the guard and, per Python indexing, reads the last
element; a genuinely out-of-range read would raise and yields nothing
here — it is unreachable for FAISS outputs.) -/
def searchCore (chunks : List PyDict) (vecs : List (List ℚ)) (q : List ℚ)
    (top_k : ℕ) : List PyDict :=
  (faissSearch vecs q top_k).filterMap (fun p =>
    if p.2 < (chunks.length : ℤ) then
      (pyGet chunks p.2).map (fun ch => dictSet ch Key.similarity_score (.q (simOf p.1)))
    else none)

/-- The loaded per-jurisdiction state: FAISS index (its stored vectors) and
the parallel chunk-metadata list. -/
structure LoadedIndex where
  chunks : List PyDict
  vecs : List (List ℚ)

/-- Query-time failures of `search`: the `Exception` raised when the index
is still absent after the bounded wait (the spec's `IndexNotReadyError`),
carrying the jurisdiction name from the message
`f"Index not loaded for {self.country}. ..."`. -/
inductive SearchError where
  | indexNotReady (country : String)
deriving DecidableEq, Repr

/-- The poll interval of the wait loop (retriever.py line 218). -/
def wait_step : ℚ := 1 / 5

/-- The wait ceiling of the wait loop (retriever.py line 219). -/
def max_wait : ℚ := 5

/-- The wait loop of `search` (retriever.py lines 217-222): while the index
is absent and `waited < max_wait`, sleep `wait_step` and add it to
`waited`.  Iterations are counted by `n`, so `waited = n * wait_step`
exactly; the returned value is the total number of sleeps performed. -/
def waitLoop (avail : ℕ → Bool) (n : ℕ) : ℕ :=
  if avail n = false ∧ (n : ℚ) * wait_step < max_wait then waitLoop avail (n + 1)
  else n
termination_by (25 - n : ℕ)
decreasing_by
  have h2 := ‹avail n = false ∧ (n : ℚ) * wait_step < max_wait›.2
  rw [wait_step, max_wait] at h2
  have hn : (n : ℚ) < 25 := by linarith
  have : n < 25 := by exact_mod_cast hn
  omega

/-- Model of `FAISSRetriever.search` (retriever.py lines 197-255).  The
environment `avail` gives the state of `self.index`/`self.chunks` as
observable at the `n`-th poll (a background load may publish it at any
time); if the index is still absent when the wait loop exits, the
not-ready error naming the jurisdiction is raised, otherwise the FAISS
search runs on the loaded state. -/
def search (country : String) (avail : ℕ → Option LoadedIndex) (q : List ℚ)
    (top_k : ℕ) : Except SearchError (List PyDict) :=
  let n := waitLoop (fun t => (avail t).isSome) 0
  match avail n with
  | none => .error (.indexNotReady country)
  | some st => .ok (searchCore st.chunks st.vecs q top_k)

/-- Failures of the steps of `build_index`. -/
inductive BuildError where
  | store (msg : String)
  | format (e : DocumentFormatError)
  | embedFail (msg : String)
  | saveFail (msg : String)
deriving DecidableEq, Repr

/-- The collaborators of `build_index`: the outcome of
`processor.load_documents`, of `embedding_model.encode_texts`, and of
`save_index`. -/
structure BuildEnv where
  loadResult : Except String (List PyDocument)
  embedResult : List (List Char) → Except String (List (List ℚ))
  saveResult : Except String Unit

/-- The mutable per-retriever state touched by `build_index`:
`self.index` and `self.chunks`. -/
structure RetrieverState where
  index : Option (List (List ℚ))
  chunks : List PyDict
deriving DecidableEq

/-- Model of `FAISSRetriever.build_index` (retriever.py lines 77-141),
preserving the mutation order of the source: documents are loaded and
chunked first (lines 93-97, no state touched), then `self.chunks` is
rebuilt (lines 100-113), then embeddings are computed (line 120), then
`self.index` is replaced (lines 129-132), then everything is persisted
(line 137).  The pair returned is the final in-memory state and the
outcome. -/
def build_index (env : BuildEnv) (st : RetrieverState) :
    RetrieverState × Except BuildError Unit :=
  match env.loadResult with
  | .error m => (st, .error (.store m))
  | .ok documents =>
    match process_documents 500 documents with
    | .error e => (st, .error (.format e))
    | .ok chunk_objects =>
      let st1 : RetrieverState := { st with chunks := chunk_objects.map chunkToDict }
      let texts := chunk_objects.map (fun c => c.text)
      match env.embedResult texts with
      | .error m => (st1, .error (.embedFail m))
      | .ok embeddings =>
        let st2 : RetrieverState := { st1 with index := some embeddings }
        match env.saveResult with
        | .error m => (st2, .error (.saveFail m))
        | .ok _ => (st2, .ok ())

/-- The similarity score carried by a search-result dictionary (zero when
absent or of the wrong shape). -/
def simScore (r : PyDict) : ℚ :=
  match dictGet r Key.similarity_score with
  | some (.q s) => s
  | _ => 0

/-- The chunks `g` are exactly what processing one well-formed document `d`
yields, metadata-wise: contiguous `chunk_id`s `0..g.length-1`, a shared
`total_chunks` equal to the group size, and provenance fields copied from
`d`. -/
def groupGood (d : PyDocument) (g : List DocumentChunk) : Prop :=
  g.map (fun c => c.chunk_id) = List.range g.length ∧
    ∀ c ∈ g, c.total_chunks = g.length ∧ some c.title = d.title ∧
      c.section_ = d.section_.getD [] ∧ c.source_url = d.source_url.getD [] ∧
      some c.country = d.country ∧ some c.category = d.category

/-- A `DocumentChunk` value used as a harmless `getD` default. -/
def defaultChunk : DocumentChunk :=
  { text := [], title := [], section_ := [], source_url := [], country := [],
    category := [], chunk_id := 0, total_chunks := 0 }

/-- A sample stored chunk used by the concrete evaluations below. -/
def sampleChunk : DocumentChunk :=
  { text := ("Visa rules apply.").toList, title := ("Immigration Act").toList,
    section_ := ("s1").toList, source_url := ("http://x").toList,
    country := ("india").toList, category := ("immigration").toList,
    chunk_id := 0, total_chunks := 1 }

/-- A second sample stored chunk. -/
def sampleChunk2 : DocumentChunk :=
  { text := ("Labor law text.").toList, title := ("Labor Act").toList,
    section_ := ("s2").toList, source_url := ("http://y").toList,
    country := ("india").toList, category := ("labor").toList,
    chunk_id := 1, total_chunks := 2 }

/-- A sample well-formed input document. -/
def sampleDoc : PyDocument :=
  { title := some ("Immigration Act").toList,
    content := some ("One longer sentence here. Two. Three.").toList,
    section_ := some ("s1").toList, source_url := none,
    country := some ("india").toList, category := some ("immigration").toList }

/-- A sample document missing its `country` field. -/
def sampleDocNoCountry : PyDocument :=
  { title := some ("Immigration Act").toList,
    content := some ("One. Two.").toList,
    section_ := none, source_url := none,
    country := none, category := some ("immigration").toList }

/-- A sample document whose `content` is the empty string. -/
def sampleDocEmptyContent : PyDocument :=
  { title := some ("Empty Act").toList, content := some [],
    section_ := none, source_url := none,
    country := some ("india").toList, category := some ("civil").toList }

/-- A build environment in which document loading and chunking succeed but
the embedding step fails. -/
def sampleEnvEmbedFail : BuildEnv :=
  { loadResult := .ok [sampleDoc],
    embedResult := fun _ => .error ("model unavailable"),
    saveResult := .ok () }

/-- A retriever state that already holds a working index. -/
def sampleState : RetrieverState :=
  { index := some [[1]], chunks := [chunkToDict sampleChunk] }

/-- A build environment in which document loading itself fails. -/
def sampleEnvLoadFail : BuildEnv :=
  { loadResult := .error ("laws file not found"),
    embedResult := fun _ => .ok [],
    saveResult := .ok () }

/-! ### Generic lemmas about the dictionary and list models -/

lemma pyGet_mem {α : Type} {l : List α} {i : ℤ} {x : α} (h : pyGet l i = some x) :
    x ∈ l := by
  unfold pyGet at h
  split at h
  · exact List.get?_mem h
  · split at h
    · exact List.get?_mem h
    · cases h

lemma pyGet_natCast {α : Type} (l : List α) (j : ℕ) (h : j < l.length) (d : α) :
    pyGet l (j : ℤ) = some (l.getD j d) := by
  unfold pyGet
  rw [if_pos (by omega)]
  rw [Int.toNat_natCast]
  rw [List.getD_eq_get? ]
  cases hg : l.get? j
  · rw [List.get?_eq_none] at hg; omega
  · rfl

lemma dictGet_dictSet_fresh {d : PyDict} {k : Key} {v : PyVal}
    (h : ∀ p ∈ d, p.1 ≠ k) : dictGet (dictSet d k v) k = some v := by
  have hany : d.any (fun p => p.1 = k) = false := by
    rw [List.any_eq_false]
    intro p hp
    simpa using h p hp
  unfold dictSet
  rw [if_neg (by simp [hany])]
  unfold dictGet
  rw [List.find?_append]
  have hnone : d.find? (fun p => decide (p.1 = k)) = none := by
    rw [List.find?_eq_none]
    intro p hp
    simpa using h p hp
  rw [hnone]
  simp

lemma dictSet_keys_fresh {d : PyDict} {k : Key} {v : PyVal}
    (h : ∀ p ∈ d, p.1 ≠ k) :
    (dictSet d k v).map Prod.fst = d.map Prod.fst ++ [k] := by
  have hany : d.any (fun p => p.1 = k) = false := by
    rw [List.any_eq_false]
    intro p hp
    simpa using h p hp
  unfold dictSet
  rw [if_neg (by simp [hany])]
  simp

lemma dictGet_eq_none_of_fresh {d : PyDict} {k : Key}
    (h : ∀ p ∈ d, p.1 ≠ k) : dictGet d k = none := by
  unfold dictGet
  have hnone : d.find? (fun p => decide (p.1 = k)) = none := by
    rw [List.find?_eq_none]
    intro p hp
    simpa using h p hp
  rw [hnone]
  rfl

lemma filterMap_eq_map_of_all_some {α β : Type} {f : α → Option β} {g : α → β}
    {l : List α} (h : ∀ x ∈ l, f x = some (g x)) : l.filterMap f = l.map g := by
  induction l with
  | nil => rfl
  | cons a l ih =>
    rw [List.filterMap_cons, h a (List.mem_cons_self a l), List.map_cons,
      ih (fun x hx => h x (List.mem_cons_of_mem a hx))]

/-! ### Lemmas about the FAISS search model -/

lemma sqDist_nonneg (u v : List ℚ) : 0 ≤ sqDist u v := by
  unfold sqDist
  apply List.sum_nonneg
  intro x hx
  rcases List.mem_iff_get.1 (by simpa using hx) with ⟨n, hn⟩
  rw [List.get_zipWith] at hn
  rw [← hn]
  positivity

lemma sqDist_self (v : List ℚ) : sqDist v v = 0 := by
  unfold sqDist
  induction v with
  | nil => rfl
  | cons a l ih => simpa using ih

lemma mem_faissScored {vecs : List (List ℚ)} {q : List ℚ} {p : ℚ × ℤ}
    (h : p ∈ faissScored vecs q) :
    ∃ j, j < vecs.length ∧ p = (sqDist q (vecs.getD j []), (j : ℤ)) := by
  unfold faissScored at h
  rcases List.mem_map.1 h with ⟨j, hj, hp⟩
  exact ⟨j, List.mem_range.1 hj, hp.symm⟩

lemma length_faissScored (vecs : List (List ℚ)) (q : List ℚ) :
    (faissScored vecs q).length = vecs.length := by
  unfold faissScored
  simp

lemma faissSearch_of_le {vecs : List (List ℚ)} {q : List ℚ} {k : ℕ}
    (h : k ≤ vecs.length) :
    faissSearch vecs q k = (List.insertionSort distLe (faissScored vecs q)).take k := by
  unfold faissSearch
  rw [List.length_insertionSort, length_faissScored, Nat.sub_eq_zero_of_le h]
  simp

lemma mem_faissSearch_of_le {vecs : List (List ℚ)} {q : List ℚ} {k : ℕ}
    (hk : k ≤ vecs.length) {p : ℚ × ℤ} (h : p ∈ faissSearch vecs q k) :
    p ∈ faissScored vecs q := by
  rw [faissSearch_of_le hk] at h
  exact (List.mem_insertionSort distLe).1 (List.mem_of_mem_take h)

lemma pairwise_faissSearch (vecs : List (List ℚ)) (q : List ℚ) (k : ℕ) :
    List.Pairwise distLe ((List.insertionSort distLe (faissScored vecs q)).take k) :=
  (List.sorted_insertionSort distLe (faissScored vecs q)).sublist (List.take_sublist _ _)

lemma simOf_pos {d : ℚ} (h : 0 ≤ d) : 0 < simOf d := by
  unfold simOf
  positivity

lemma simOf_le_one {d : ℚ} (h : 0 ≤ d) : simOf d ≤ 1 := by
  unfold simOf
  rw [div_le_one (by positivity)]
  linarith

lemma simOf_antitone {a b : ℚ} (ha : 0 ≤ a) (hab : a ≤ b) : simOf b ≤ simOf a := by
  unfold simOf
  exact one_div_le_one_div_of_le (by linarith) (by linarith)

lemma chunkToDict_keys (c : DocumentChunk) :
    (chunkToDict c).map Prod.fst =
      [Key.text, Key.title, Key.section_, Key.source_url, Key.country,
       Key.category, Key.chunk_id] := rfl

lemma chunkToDict_fresh (c : DocumentChunk) {k : Key}
    (hk1 : k ≠ Key.text) (hk2 : k ≠ Key.title) (hk3 : k ≠ Key.section_)
    (hk4 : k ≠ Key.source_url) (hk5 : k ≠ Key.country) (hk6 : k ≠ Key.category)
    (hk7 : k ≠ Key.chunk_id) :
    ∀ p ∈ chunkToDict c, p.1 ≠ k := by
  intro p hp
  have : p.1 ∈ (chunkToDict c).map Prod.fst := List.mem_map_of_mem Prod.fst hp
  rw [chunkToDict_keys] at this
  simp only [List.mem_cons, List.mem_singleton] at this
  rcases this with h | h | h | h | h | h | h | h
  all_goals first
    | (rw [h]; exact fun he => (by simp_all))
    | simp at h

lemma dictSet_fresh_eq_append {d : PyDict} {k : Key} {v : PyVal}
    (h : ∀ p ∈ d, p.1 ≠ k) : dictSet d k v = d ++ [(k, v)] := by
  have hany : d.any (fun p => p.1 = k) = false := by
    rw [List.any_eq_false]
    intro p hp
    simpa using h p hp
  unfold dictSet
  rw [if_neg (by simp [hany])]

lemma mapped_getD (cObjs : List DocumentChunk) (j : ℕ) (hj : j < cObjs.length) :
    (cObjs.map chunkToDict).getD j [] = chunkToDict (cObjs.getD j defaultChunk) := by
  rw [List.getD_eq_get?, List.getD_eq_get?, List.get?_map]
  cases hg : cObjs.get? j
  · rw [List.get?_eq_none] at hg; omega
  · rfl

lemma simScore_dictSet {x : PyDict} {s : ℚ}
    (h : ∀ p ∈ x, p.1 ≠ Key.similarity_score) :
    simScore (dictSet x Key.similarity_score (.q s)) = s := by
  unfold simScore
  rw [dictGet_dictSet_fresh h]

lemma searchCore_eq_map {cObjs : List DocumentChunk} {vecs : List (List ℚ)}
    {q : List ℚ} {k : ℕ}
    (hlen : (cObjs.map chunkToDict).length = vecs.length) (hk : k ≤ vecs.length) :
    searchCore (cObjs.map chunkToDict) vecs q k
      = (faissSearch vecs q k).map (fun p =>
          dictSet ((cObjs.map chunkToDict).getD p.2.toNat []) Key.similarity_score
            (.q (simOf p.1))) := by
  unfold searchCore
  apply filterMap_eq_map_of_all_some
  intro p hp
  rcases mem_faissScored (mem_faissSearch_of_le hk hp) with ⟨j, hj, rfl⟩
  have hjc : j < (cObjs.map chunkToDict).length := by rw [hlen]; exact hj
  have h2 : ((sqDist q (vecs.getD j []), (j : ℤ)).2) < ((cObjs.map chunkToDict).length : ℤ) := by
    show (j : ℤ) < _
    exact_mod_cast hjc
  rw [if_pos h2]
  show (pyGet (cObjs.map chunkToDict) (j : ℤ)).map _ = _
  rw [pyGet_natCast _ j hjc []]
  simp

/-! ### Claims about the search result assembly (C1, C5, C10) -/

/-- C1 (code bug): the claim says `search(query, top_k)` with `top_k`
greater than the index size returns exactly `size()` results with no
padding or duplicates.  On an index holding one vector and one chunk,
searching with `top_k = 2` in fact returns 2 results: FAISS pads the
missing neighbor with ordinal `-1`, which passes the `idx < len(self.chunks)`
guard, and Python's negative indexing turns it into a duplicate of the last
stored chunk carrying the sentinel similarity `1/(1 + FLT_MAX)`. -/
theorem C1_search_topk_overflow_pads_duplicates :
    (searchCore [chunkToDict sampleChunk] [[1]] [1] 2).length = 2 ∧
    ([[1]] : List (List ℚ)).length = 1 ∧
    (searchCore [chunkToDict sampleChunk] [[1]] [1] 2).map (fun r => dictGet r Key.text)
      = [some (.s sampleChunk.text), some (.s sampleChunk.text)] ∧
    (searchCore [chunkToDict sampleChunk] [[1]] [1] 2).map
        (fun r => dictGet r Key.similarity_score)
      = [some (.q 1), some (.q (simOf fltMax))] := by
  decide

/-- C5 counterexample: with one stored chunk/vector and `top_k = 2`, the
second returned element is the same stored chunk (same `text`), whose
vector is at squared distance 0 from the query, yet it carries the sentinel
score `1/(1 + FLT_MAX)` rather than `1/(1 + 0) = 1` — so not every result
carries the similarity `1/(1 + distance)` of its own vector. -/
theorem C5_counterexample_sentinel_score :
    (searchCore [chunkToDict sampleChunk2] [[1]] [1] 2).map
        (fun r => dictGet r Key.text)
      = [some (.s sampleChunk2.text), some (.s sampleChunk2.text)] ∧
    (searchCore [chunkToDict sampleChunk2] [[1]] [1] 2).map
        (fun r => dictGet r Key.similarity_score)
      = [some (.q 1), some (.q (simOf fltMax))] ∧
    sqDist [1] (([[1]] : List (List ℚ)).getD 0 []) = 0 ∧
    simOf fltMax ≠ simOf 0 := by
  decide

/-- C5 (amended: for `top_k` not exceeding the index size): every result of
`search` on a loaded index is the metadata dictionary of some stored chunk
`j` carrying similarity score exactly `1/(1 + sqDist(query, vector j))`;
every carried score lies in `(0, 1]`; the result list is ordered by
non-increasing similarity; and identical vectors are at distance 0 and
score exactly 1. -/
theorem C5_search_similarity_formula_range_sorted (cObjs : List DocumentChunk)
    (vecs : List (List ℚ)) (q : List ℚ) (k : ℕ)
    (hlen : (cObjs.map chunkToDict).length = vecs.length)
    (hk : k ≤ vecs.length) :
    (∀ r ∈ searchCore (cObjs.map chunkToDict) vecs q k,
        ∃ j, j < vecs.length ∧
          r = dictSet ((cObjs.map chunkToDict).getD j []) Key.similarity_score
            (.q (simOf (sqDist q (vecs.getD j []))))) ∧
    (∀ r ∈ searchCore (cObjs.map chunkToDict) vecs q k,
        ∃ s : ℚ, dictGet r Key.similarity_score = some (.q s) ∧ 0 < s ∧ s ≤ 1) ∧
    List.Pairwise (fun a b => simScore b ≤ simScore a)
      (searchCore (cObjs.map chunkToDict) vecs q k) ∧
    (∀ v : List ℚ, sqDist v v = 0 ∧ simOf (sqDist v v) = 1) := by
  have hlc : cObjs.length = vecs.length := by
    rw [List.length_map] at hlen; exact hlen
  refine ⟨?_, ?_, ?_, ?_⟩
  · intro r hr
    rw [searchCore_eq_map hlen hk] at hr
    rcases List.mem_map.1 hr with ⟨p, hp, rfl⟩
    rcases mem_faissScored (mem_faissSearch_of_le hk hp) with ⟨j, hj, rfl⟩
    exact ⟨j, hj, by simp⟩
  · intro r hr
    rw [searchCore_eq_map hlen hk] at hr
    rcases List.mem_map.1 hr with ⟨p, hp, rfl⟩
    rcases mem_faissScored (mem_faissSearch_of_le hk hp) with ⟨j, hj, rfl⟩
    have hjc : j < cObjs.length := by omega
    have hfresh := chunkToDict_fresh (cObjs.getD j defaultChunk)
      (k := Key.similarity_score) (by decide) (by decide) (by decide) (by decide)
      (by decide) (by decide) (by decide)
    refine ⟨simOf (sqDist q (vecs.getD j [])), ?_,
      simOf_pos (sqDist_nonneg q (vecs.getD j [])),
      simOf_le_one (sqDist_nonneg q (vecs.getD j []))⟩
    show dictGet (dictSet ((cObjs.map chunkToDict).getD ((j : ℤ)).toNat [])
      Key.similarity_score (.q (simOf (sqDist q (vecs.getD j []))))) _ = _
    rw [Int.toNat_natCast, mapped_getD cObjs j hjc, dictGet_dictSet_fresh hfresh]
  · rw [searchCore_eq_map hlen hk, List.pairwise_map, faissSearch_of_le hk]
    apply List.Pairwise.imp_of_mem ?_ (pairwise_faissSearch vecs q k)
    intro a b ha hb hab
    rcases mem_faissScored ((List.mem_insertionSort distLe).1
      (List.mem_of_mem_take ha)) with ⟨j1, hj1, rfl⟩
    rcases mem_faissScored ((List.mem_insertionSort distLe).1
      (List.mem_of_mem_take hb)) with ⟨j2, hj2, rfl⟩
    have h1 : j1 < cObjs.length := by omega
    have h2 : j2 < cObjs.length := by omega
    show simScore (dictSet ((cObjs.map chunkToDict).getD ((j2 : ℤ)).toNat [])
        Key.similarity_score (.q (simOf (sqDist q (vecs.getD j2 []))))) ≤
      simScore (dictSet ((cObjs.map chunkToDict).getD ((j1 : ℤ)).toNat [])
        Key.similarity_score (.q (simOf (sqDist q (vecs.getD j1 [])))))
    rw [Int.toNat_natCast, Int.toNat_natCast, mapped_getD cObjs j1 h1,
      mapped_getD cObjs j2 h2]
    rw [simScore_dictSet (chunkToDict_fresh _ (by decide) (by decide) (by decide)
      (by decide) (by decide) (by decide) (by decide))]
    rw [simScore_dictSet (chunkToDict_fresh _ (by decide) (by decide) (by decide)
      (by decide) (by decide) (by decide) (by decide))]
    apply simOf_antitone (sqDist_nonneg q (vecs.getD j1 []))
    rcases hab with h | ⟨h, _⟩
    · exact le_of_lt h
    · exact le_of_eq h
  · intro v
    refine ⟨sqDist_self v, ?_⟩
    rw [sqDist_self]
    unfold simOf
    norm_num

/-- C5 witness: on a concrete one-chunk index with `top_k = 1`, the single
result carries a score in `(0, 1]`. -/
theorem C5_witness :
    ∃ s : ℚ,
      dictGet (dictSet (chunkToDict sampleChunk) Key.similarity_score (.q 1))
          Key.similarity_score = some (.q s) ∧ 0 < s ∧ s ≤ 1 :=
  (C5_search_similarity_formula_range_sorted [sampleChunk] [[1]] [1] 1 rfl
    (by decide)).2.1 _ (by
      have h : searchCore (List.map chunkToDict [sampleChunk]) [[1]] [1] 1
          = [dictSet (chunkToDict sampleChunk) Key.similarity_score (.q 1)] := by
        decide
      rw [h]
      exact List.mem_singleton_self _)

/-- C10 (confirmed): every element returned by the search of a loaded index
whose metadata was produced by `build_index` carries exactly the keys
`text`, `title`, `section`, `source_url`, `country`, `category`,
`chunk_id`, `similarity_score` (in insertion order), and in particular no
`total_chunks` key. -/
theorem C10_search_result_keys (cObjs : List DocumentChunk)
    (vecs : List (List ℚ)) (q : List ℚ) (k : ℕ) :
    ∀ r ∈ searchCore (cObjs.map chunkToDict) vecs q k,
      r.map Prod.fst = [Key.text, Key.title, Key.section_, Key.source_url,
        Key.country, Key.category, Key.chunk_id, Key.similarity_score] ∧
      dictGet r Key.total_chunks = none := by
  intro r hr
  unfold searchCore at hr
  rcases List.mem_filterMap.1 hr with ⟨p, hp, hfp⟩
  by_cases hc : p.2 < ((cObjs.map chunkToDict).length : ℤ)
  · rw [if_pos hc] at hfp
    obtain ⟨x, hx, rfl⟩ := Option.map_eq_some'.1 hfp
    rcases List.mem_map.1 (pyGet_mem hx) with ⟨c, _, rfl⟩
    have hfresh := chunkToDict_fresh c (k := Key.similarity_score) (by decide)
      (by decide) (by decide) (by decide) (by decide) (by decide) (by decide)
    constructor
    · rw [dictSet_keys_fresh hfresh, chunkToDict_keys]
      rfl
    · apply dictGet_eq_none_of_fresh
      rw [dictSet_fresh_eq_append hfresh]
      intro pp hpp
      rcases List.mem_append.1 hpp with h | h
      · exact chunkToDict_fresh c (k := Key.total_chunks) (by decide) (by decide)
          (by decide) (by decide) (by decide) (by decide) (by decide) pp h
      · rw [List.mem_singleton] at h
        rw [h]
        simp
  · rw [if_neg hc] at hfp
    cases hfp

/-- C10 witness: the single result of a concrete one-chunk search has
exactly the eight expected keys and no `total_chunks` key. -/
theorem C10_witness :
    (dictSet (chunkToDict sampleChunk) Key.similarity_score (.q 1)).map Prod.fst
        = [Key.text, Key.title, Key.section_, Key.source_url, Key.country,
           Key.category, Key.chunk_id, Key.similarity_score] ∧
      dictGet (dictSet (chunkToDict sampleChunk) Key.similarity_score (.q 1))
          Key.total_chunks = none :=
  C10_search_result_keys [sampleChunk] [[1]] [1] 1 _ (by
    have h : searchCore (List.map chunkToDict [sampleChunk]) [[1]] [1] 1
        = [dictSet (chunkToDict sampleChunk) Key.similarity_score (.q 1)] := by
      decide
    rw [h]
    exact List.mem_singleton_self _)

/-! ### Claims about build_index state preservation (C2) -/

/-- C2 counterexample: with a previously working state (an index and one
chunk dictionary), a `build_index` run whose embedding step fails leaves
the retriever's `chunks` list already replaced with the freshly processed
chunks while the old `index` is kept — the pre-existing state is not
preserved. -/
theorem C2_counterexample_embed_failure_mutates_state :
    (build_index sampleEnvEmbedFail sampleState).2
        = .error (.embedFail ("model unavailable")) ∧
    (build_index sampleEnvEmbedFail sampleState).1.chunks ≠ sampleState.chunks ∧
    (build_index sampleEnvEmbedFail sampleState).1.index = sampleState.index := by
  decide

/-- C2 (amended: only failures before the state mutation preserve state):
if `build_index` fails while loading documents or while chunking them —
the steps before `self.chunks` is reassigned — the retriever's pre-existing
state is returned exactly unchanged.  (A failure at the embedding step or
later leaves the chunks list already replaced, as the counterexample
shows.) -/
theorem C2_build_index_early_failure_preserves_state :
    (∀ (env : BuildEnv) (st : RetrieverState) (m : String),
        env.loadResult = .error m → build_index env st = (st, .error (.store m))) ∧
    (∀ (env : BuildEnv) (st : RetrieverState) (docs : List PyDocument)
        (e : DocumentFormatError), env.loadResult = .ok docs →
        process_documents 500 docs = .error e →
        build_index env st = (st, .error (.format e))) := by
  constructor
  · intro env st m h
    simp only [build_index, h]
  · intro env st docs e h1 h2
    simp only [build_index, h1, h2]

/-- C2 witness: a concrete failed document load returns the previous state
untouched together with the store error. -/
theorem C2_witness :
    build_index sampleEnvLoadFail sampleState
      = (sampleState, .error (.store ("laws file not found"))) :=
  (C2_build_index_early_failure_preserves_state).1 sampleEnvLoadFail sampleState
    ("laws file not found") rfl

/-! ### Claims about the bounded wait of search (C3) -/

lemma waitLoop_le (avail : ℕ → Bool) :
    ∀ (k n : ℕ), 25 - n = k → (n : ℚ) * wait_step ≤ max_wait →
      ((waitLoop avail n : ℕ) : ℚ) * wait_step ≤ max_wait := by
  intro k
  induction k with
  | zero =>
    intro n hk h
    have h25 : 25 ≤ n := by omega
    rw [waitLoop]
    rw [if_neg]
    · exact h
    · rintro ⟨-, hlt⟩
      rw [wait_step, max_wait] at hlt
      have : (25 : ℚ) ≤ (n : ℚ) := by exact_mod_cast h25
      linarith
  | succ k ih =>
    intro n hk h
    rw [waitLoop]
    by_cases hc : avail n = false ∧ (n : ℚ) * wait_step < max_wait
    · rw [if_pos hc]
      apply ih (n + 1) (by omega)
      have hlt := hc.2
      rw [wait_step, max_wait] at hlt ⊢
      have hn : (n : ℚ) < 25 := by linarith
      have hn' : n < 25 := by exact_mod_cast hn
      have : (n : ℚ) + 1 ≤ 25 := by
        have : n + 1 ≤ 25 := by omega
        exact_mod_cast this
      push_cast
      linarith
    · rw [if_neg hc]
      exact h

lemma waitLoop_never :
    ∀ (k n : ℕ), 25 - n = k → n ≤ 25 → waitLoop (fun _ => false) n = 25 := by
  intro k
  induction k with
  | zero =>
    intro n hk hn
    have : n = 25 := by omega
    subst this
    rw [waitLoop]
    rw [if_neg]
    rintro ⟨-, hlt⟩
    rw [wait_step, max_wait] at hlt
    norm_num at hlt
  | succ k ih =>
    intro n hk hn
    rw [waitLoop]
    rw [if_pos]
    · exact ih (n + 1) (by omega) (by omega)
    · refine ⟨rfl, ?_⟩
      rw [wait_step, max_wait]
      have : n < 25 := by omega
      have h25 : (n : ℚ) < 25 := by exact_mod_cast this
      linarith

/-- C3 (confirmed): `search` on an absent index waits a bounded total time
of at most `max_wait = 5` seconds (the sum of its `wait_step = 0.2` second
sleeps never exceeds the ceiling), and if the index never becomes available
it raises the not-ready error naming the jurisdiction after exactly 25
polls (5.0 seconds), rather than blocking indefinitely or returning a
result. -/
theorem C3_search_bounded_wait_raises_not_ready (country : String)
    (avail : ℕ → Option LoadedIndex) (q : List ℚ) (top_k : ℕ) :
    ((waitLoop (fun t => (avail t).isSome) 0 : ℕ) : ℚ) * wait_step ≤ max_wait ∧
    ((∀ t, avail t = none) →
      search country avail q top_k = .error (.indexNotReady country) ∧
      waitLoop (fun t => (avail t).isSome) 0 = 25) := by
  constructor
  · exact waitLoop_le _ 25 0 rfl (by rw [wait_step, max_wait]; norm_num)
  · intro h
    have ha : (fun t => (avail t).isSome) = fun _ => false :=
      funext (fun t => by rw [h t]; rfl)
    have h25 : waitLoop (fun t => (avail t).isSome) 0 = 25 := by
      rw [ha]
      exact waitLoop_never 25 0 rfl (by omega)
    refine ⟨?_, h25⟩
    simp only [search, h]

/-- C3 witness: with jurisdiction `india`, no loaded index and no
background load ever completing, `search` raises the not-ready error
naming `india`. -/
theorem C3_witness :
    search ("india") (fun _ => none) [1] 3 = .error (.indexNotReady ("india")) :=
  ((C3_search_bounded_wait_raises_not_ready ("india") (fun _ => none) [1] 3).2
    (fun _ => rfl)).1

/-! ### Lemmas about clean_text (C9) -/

lemma collapse_chars :
    ∀ (l : List Char) (b : Bool) (c : Char), c ∈ collapseAux b l →
      c = ' ' ∨ (c ∈ l ∧ isPySpace c = false) := by
  intro l
  induction l with
  | nil => intro b c hc; simp [collapseAux] at hc
  | cons a rest ih =>
    intro b c hc
    by_cases ha : isPySpace a
    · cases b with
      | true =>
        rw [show collapseAux true (a :: rest) = collapseAux true rest from by
          simp [collapseAux, ha]] at hc
        rcases ih true c hc with h | ⟨h1, h2⟩
        · exact Or.inl h
        · exact Or.inr ⟨List.mem_cons_of_mem a h1, h2⟩
      | false =>
        rw [show collapseAux false (a :: rest) = ' ' :: collapseAux true rest from by
          simp [collapseAux, ha]] at hc
        rcases List.mem_cons.1 hc with h | h
        · exact Or.inl h
        · rcases ih true c h with h' | ⟨h1, h2⟩
          · exact Or.inl h'
          · exact Or.inr ⟨List.mem_cons_of_mem a h1, h2⟩
    · rw [show collapseAux b (a :: rest) = a :: collapseAux false rest from by
        simp [collapseAux, ha]] at hc
      rcases List.mem_cons.1 hc with h | h
      · refine Or.inr ⟨?_, ?_⟩
        · rw [h]; exact List.mem_cons_self a rest
        · rw [h]; simpa using ha
      · rcases ih false c h with h' | ⟨h1, h2⟩
        · exact Or.inl h'
        · exact Or.inr ⟨List.mem_cons_of_mem a h1, h2⟩

lemma collapse_chain :
    ∀ (l : List Char) (b : Bool),
      List.Chain' (fun x y => isPySpace x = false ∨ isPySpace y = false)
        (collapseAux b l) ∧
      (∀ c, (collapseAux true l).head? = some c → isPySpace c = false) := by
  intro l
  induction l with
  | nil =>
    intro b
    refine ⟨by simp [collapseAux], ?_⟩
    intro c hc
    simp [collapseAux] at hc
  | cons a rest ih =>
    intro b
    by_cases ha : isPySpace a
    · constructor
      · cases b with
        | true =>
          rw [show collapseAux true (a :: rest) = collapseAux true rest from by
            simp [collapseAux, ha]]
          exact (ih true).1
        | false =>
          rw [show collapseAux false (a :: rest) = ' ' :: collapseAux true rest from by
            simp [collapseAux, ha]]
          rw [List.chain'_cons']
          refine ⟨?_, (ih true).1⟩
          intro y hy
          exact Or.inr ((ih true).2 y (Option.mem_def.1 hy))
      · intro c hc
        rw [show collapseAux true (a :: rest) = collapseAux true rest from by
          simp [collapseAux, ha]] at hc
        exact (ih true).2 c hc
    · constructor
      · rw [show collapseAux b (a :: rest) = a :: collapseAux false rest from by
          simp [collapseAux, ha]]
        rw [List.chain'_cons']
        exact ⟨fun y _ => Or.inl (by simpa using ha), (ih false).1⟩
      · intro c hc
        rw [show collapseAux true (a :: rest) = a :: collapseAux false rest from by
          simp [collapseAux, ha]] at hc
        rw [List.head?_cons] at hc
        cases hc
        simpa using ha

lemma collapse_eq_self :
    ∀ (l : List Char),
      (∀ c ∈ l, isPySpace c → c = ' ') →
      List.Chain' (fun x y => isPySpace x = false ∨ isPySpace y = false) l →
      collapseAux false l = l ∧
        ((∀ c, l.head? = some c → isPySpace c = false) → collapseAux true l = l) := by
  intro l
  induction l with
  | nil => intro _ _; exact ⟨rfl, fun _ => rfl⟩
  | cons a rest ih =>
    intro hall hch
    have htail := (List.chain'_cons'.1 hch).2
    have hallt : ∀ c ∈ rest, isPySpace c → c = ' ' :=
      fun c hc => hall c (List.mem_cons_of_mem a hc)
    by_cases ha : isPySpace a
    · have ha' : a = ' ' := hall a (List.mem_cons_self a rest) (by simpa using ha)
      have hheadr : ∀ c, rest.head? = some c → isPySpace c = false := by
        intro c hc
        rcases (List.chain'_cons'.1 hch).1 c (Option.mem_def.2 hc) with h | h
        · rw [show isPySpace a = true from by simpa using ha] at h; cases h
        · exact h
      constructor
      · rw [show collapseAux false (a :: rest) = ' ' :: collapseAux true rest from by
          simp [collapseAux, ha]]
        rw [(ih hallt htail).2 hheadr, ha']
      · intro hhead
        have := hhead a (by simp)
        rw [show isPySpace a = true from by simpa using ha] at this
        cases this
    · constructor
      · rw [show collapseAux false (a :: rest) = a :: collapseAux false rest from by
          simp [collapseAux, ha]]
        rw [(ih hallt htail).1]
      · intro _
        rw [show collapseAux true (a :: rest) = a :: collapseAux false rest from by
          simp [collapseAux, ha]]
        rw [(ih hallt htail).1]

lemma chain'_dropWhile {P : Char → Char → Prop} {p : Char → Bool} :
    ∀ {l : List Char}, List.Chain' P l → List.Chain' P (l.dropWhile p) := by
  intro l
  induction l with
  | nil => intro h; simpa using h
  | cons a rest ih =>
    intro h
    rw [List.dropWhile_cons]
    split
    · exact ih (List.chain'_cons'.1 h).2
    · exact h

lemma chain'_reverse_symm {P : Char → Char → Prop}
    (hsymm : ∀ x y, P x y → P y x) {l : List Char} (h : List.Chain' P l) :
    List.Chain' P l.reverse := by
  rw [List.chain'_reverse]
  exact List.Chain'.imp (fun a b hab => hsymm a b hab) h

lemma mem_stripWs {l : List Char} {c : Char} (h : c ∈ stripWs l) : c ∈ l := by
  unfold stripWs at h
  rw [List.mem_reverse] at h
  have h1 := (List.dropWhile_sublist _).subset h
  rw [List.mem_reverse] at h1
  exact (List.dropWhile_sublist _).subset h1

lemma chain'_stripWs {P : Char → Char → Prop}
    (hsymm : ∀ x y, P x y → P y x) {l : List Char} (h : List.Chain' P l) :
    List.Chain' P (stripWs l) :=
  chain'_reverse_symm hsymm (chain'_dropWhile (chain'_reverse_symm hsymm
    (chain'_dropWhile h)))

lemma dropWhile_idem {p : Char → Bool} (l : List Char) :
    (l.dropWhile p).dropWhile p = l.dropWhile p := by
  cases hd : l.dropWhile p with
  | nil => rfl
  | cons c m =>
    have hc := List.head?_dropWhile_not p l
    rw [hd] at hc
    simp only [List.head?_cons] at hc
    simp [List.dropWhile_cons, hc]

lemma stripWs_idem (l : List Char) : stripWs (stripWs l) = stripWs l := by
  have h1 : ((l.dropWhile isPySpace).reverse.dropWhile isPySpace).reverse.dropWhile
      isPySpace = ((l.dropWhile isPySpace).reverse.dropWhile isPySpace).reverse := by
    cases hbr : ((l.dropWhile isPySpace).reverse.dropWhile isPySpace).reverse with
    | nil => rfl
    | cons c m =>
      have hsplit := List.takeWhile_append_dropWhile
        (p := isPySpace) (l := (l.dropWhile isPySpace).reverse)
      have ha2 : l.dropWhile isPySpace
          = ((l.dropWhile isPySpace).reverse.dropWhile isPySpace).reverse ++
            ((l.dropWhile isPySpace).reverse.takeWhile isPySpace).reverse := by
        have h' := congrArg List.reverse hsplit
        rw [List.reverse_append, List.reverse_reverse] at h'
        exact h'.symm
      have hc : (l.dropWhile isPySpace).head? = some c := by
        rw [ha2, hbr]
        simp
      have hcf := List.head?_dropWhile_not isPySpace l
      rw [hc] at hcf
      simp only [] at hcf
      simp [List.dropWhile_cons, hcf]
  unfold stripWs
  rw [h1, List.reverse_reverse, dropWhile_idem]

/-! ### C9: idempotence of clean_text -/

/-- C9 counterexample: `clean` is not idempotent.  On `"a \x01 b"` the
whitespace collapse happens before the non-printable `\x01` is removed, so
`clean` returns `"a  b"` (two spaces), and a second `clean` collapses them
to `"a b"`. -/
theorem C9_counterexample_clean_not_idempotent :
    clean_text (clean_text ("a \x01 b").toList) ≠ clean_text ("a \x01 b").toList ∧
    clean_text ("a \x01 b").toList = ("a  b").toList ∧
    clean_text (clean_text ("a \x01 b").toList) = ("a b").toList := by
  refine ⟨?_, by decide, by decide⟩
  decide

/-- C9 (amended: for inputs without non-printable characters): on every
string whose characters all lie in the printable range `\x20`-`\x7E`,
`clean` is idempotent: `clean(clean(x)) = clean(x)`. -/
theorem C9_clean_idempotent_on_printable (x : List Char)
    (h : ∀ c ∈ x, isPrintable c = true) :
    clean_text (clean_text x) = clean_text x := by
  have hfil : (collapseAux false x).filter isPrintable = collapseAux false x := by
    rw [List.filter_eq_self]
    intro c hc
    rcases collapse_chars x false c hc with h' | ⟨h1, _⟩
    · rw [h']; decide
    · exact h c h1
  have hz : clean_text x = stripWs (collapseAux false x) := by
    unfold clean_text
    rw [hfil]
  have hsymm : ∀ a b : Char,
      (isPySpace a = false ∨ isPySpace b = false) →
      (isPySpace b = false ∨ isPySpace a = false) := by
    intro a b hab
    exact hab.symm
  have hchz : List.Chain' (fun a b => isPySpace a = false ∨ isPySpace b = false)
      (stripWs (collapseAux false x)) :=
    chain'_stripWs hsymm (collapse_chain x false).1
  have hallz : ∀ c ∈ stripWs (collapseAux false x), isPySpace c → c = ' ' := by
    intro c hc hsp
    rcases collapse_chars x false c (mem_stripWs hc) with h' | ⟨_, h2⟩
    · exact h'
    · rw [h2] at hsp; cases hsp
  have hprz : ∀ c ∈ stripWs (collapseAux false x), isPrintable c = true := by
    intro c hc
    rcases collapse_chars x false c (mem_stripWs hc) with h' | ⟨h1, _⟩
    · rw [h']; decide
    · exact h c h1
  rw [hz]
  unfold clean_text
  rw [(collapse_eq_self _ hallz hchz).1]
  rw [List.filter_eq_self.2 hprz]
  exact stripWs_idem _

/-- C9 witness: `clean` applied twice to a concrete printable string agrees
with a single application. -/
theorem C9_witness :
    clean_text (clean_text ("Hello   world ").toList)
      = clean_text ("Hello   world ").toList :=
  C9_clean_idempotent_on_printable (("Hello   world ").toList) (by decide)

/-! ### Lemmas about the sentence splitter being non-trivial -/

lemma splitAux_ne_nil : ∀ (l : List Char) (m : Option (List Char)),
    splitAux l m ≠ [] := by
  intro l
  induction l with
  | nil =>
    intro m
    cases m <;> simp [splitAux]
  | cons c rest ih =>
    intro m
    cases m with
    | some acc =>
      rw [splitAux]
      split
      · simp
      · exact ih (some (c :: acc))
    | none =>
      rw [splitAux]
      split
      · exact ih none
      · exact ih (some [c])

lemma splitAux_head_ne_nil :
    ∀ (l : List Char) (acc : List Char), acc ≠ [] →
      ∀ p, (splitAux l (some acc)).head? = some p → p ≠ [] := by
  intro l
  induction l with
  | nil =>
    intro acc hacc p hp
    rw [splitAux] at hp
    rw [List.head?_cons] at hp
    cases hp
    simpa using hacc
  | cons c rest ih =>
    intro acc hacc p hp
    rw [splitAux] at hp
    split at hp
    · rw [List.head?_cons] at hp
      cases hp
      simpa using hacc
    · exact ih (c :: acc) (by simp) p hp

lemma splitSentences_exists_cons {text : List Char} (h : text ≠ []) :
    ∃ p rest, splitSentences text = p :: rest ∧ p ≠ [] := by
  cases text with
  | nil => exact absurd rfl h
  | cons c l =>
    have h1 : splitSentences (c :: l) = splitAux l (some [c]) := by
      unfold splitSentences
      rw [splitAux]
      rw [if_neg]
      simp [headSentEnd]
    cases hs : splitAux l (some [c]) with
    | nil => exact absurd hs (splitAux_ne_nil l (some [c]))
    | cons p rest =>
      refine ⟨p, rest, by rw [h1, hs], ?_⟩
      apply splitAux_head_ne_nil l [c] (by simp) p
      rw [hs, List.head?_cons]

lemma packAux_ne_nil (size : ℕ) :
    ∀ (sents : List (List Char)) (current : List Char), current ≠ [] →
      packAux size current sents ≠ [] := by
  intro sents
  induction sents with
  | nil =>
    intro current hc
    simp [packAux, hc]
  | cons s rest ih =>
    intro current hc
    rw [packAux]
    split
    · apply ih
      simp [List.isEmpty_iff, hc]
    · rw [if_neg (by simpa [List.isEmpty_iff] using hc)]
      simp

lemma split_into_chunks_ne_nil (size : ℕ) (text : List Char) :
    split_into_chunks size text ≠ [] := by
  unfold split_into_chunks
  split
  · simp
  · rename_i hlen
    have htne : text ≠ [] := by
      intro hn
      rw [hn] at hlen
      simp at hlen
    rcases splitSentences_exists_cons htne with ⟨p, rest, hsp, hpne⟩
    rw [hsp, packAux]
    split
    · rw [show (if List.isEmpty ([] : List Char) then p else [] ++ ' ' :: p) = p
        from by simp]
      exact packAux_ne_nil size rest p hpne
    · rw [if_pos (by simp)]
      exact packAux_ne_nil size rest p hpne

/-! ### Lemmas about process_documents (C6, C7) -/

lemma buildChunks_ok {d : PyDocument} {t co ca : List Char}
    (ht : d.title = some t) (hco : d.country = some co)
    (hca : d.category = some ca) (total : ℕ) :
    ∀ (ts : List (List Char)) (idx : ℕ),
      ∃ g, buildChunks d total idx ts = .ok g ∧
        g.map (fun c => c.text) = ts ∧
        g.map (fun c => c.chunk_id) = List.range' idx ts.length ∧
        ∀ c ∈ g, c.total_chunks = total ∧ c.title = t ∧
          c.section_ = d.section_.getD [] ∧ c.source_url = d.source_url.getD [] ∧
          c.country = co ∧ c.category = ca := by
  intro ts
  induction ts with
  | nil =>
    intro idx
    exact ⟨[], rfl, rfl, rfl, by simp⟩
  | cons s rest ih =>
    intro idx
    rcases ih (idx + 1) with ⟨g, hg, htx, hid, hfields⟩
    refine ⟨⟨s, t, d.section_.getD [], d.source_url.getD [], co, ca, idx, total⟩ :: g,
      ?_, ?_, ?_, ?_⟩
    · rw [buildChunks]
      rw [show mkChunk d s idx total
          = .ok ⟨s, t, d.section_.getD [], d.source_url.getD [], co, ca, idx, total⟩
        from by rw [mkChunk, ht, hco, hca]]
      rw [hg]
    · rw [List.map_cons, htx]
    · rw [List.map_cons, hid]
      rfl
    · intro c hc
      rcases List.mem_cons.1 hc with rfl | hmem
      · exact ⟨rfl, rfl, rfl, rfl, rfl, rfl⟩
      · exact hfields c hmem

lemma docChunks_ok {d : PyDocument} (hw : wellFormed d) (size : ℕ) :
    ∃ g content, d.content = some content ∧ docChunks size d = .ok g ∧
      groupGood d g ∧
      g.map (fun c => c.text) = split_into_chunks size (clean_text content) := by
  obtain ⟨hc, ht, hco, hca⟩ := hw
  cases hcc : d.content with
  | none => exact absurd hcc hc
  | some content =>
    cases htt : d.title with
    | none => exact absurd htt ht
    | some t =>
      cases hcoo : d.country with
      | none => exact absurd hcoo hco
      | some co =>
        cases hcaa : d.category with
        | none => exact absurd hcaa hca
        | some ca =>
          rcases buildChunks_ok htt hcoo hcaa
              (split_into_chunks size (clean_text content)).length
              (split_into_chunks size (clean_text content)) 0
            with ⟨g, hg, htx, hid, hfields⟩
          have hglen : g.length = (split_into_chunks size (clean_text content)).length := by
            rw [← htx, List.length_map]
          refine ⟨g, content, rfl, ?_, ⟨?_, ?_⟩, htx⟩
          · rw [docChunks, hcc]
            exact hg
          · rw [hid, hglen, List.range_eq_range']
          · intro c hcm
            rcases hfields c hcm with ⟨h1, h2, h3, h4, h5, h6⟩
            refine ⟨by rw [h1, hglen], by rw [h2, htt], h3, h4,
              by rw [h5, hcoo], by rw [h6, hcaa]⟩

lemma docChunks_err {d : PyDocument} (hw : ¬ wellFormed d) (size : ℕ) :
    ∃ f, docChunks size d = .error (.missingField f) ∧ missingOf d f := by
  cases hcc : d.content with
  | none =>
    refine ⟨Key.content, ?_, Or.inl ⟨rfl, hcc⟩⟩
    rw [docChunks, hcc]
  | some content =>
    cases hts : split_into_chunks size (clean_text content) with
    | nil => exact absurd hts (split_into_chunks_ne_nil size (clean_text content))
    | cons s ts =>
      have hstep : ∀ e, mkChunk d s 0 (s :: ts).length = .error e →
          docChunks size d = .error e := by
        intro e he
        rw [docChunks, hcc]
        show buildChunks d (split_into_chunks size (clean_text content)).length 0
          (split_into_chunks size (clean_text content)) = .error e
        rw [hts, buildChunks, he]
      cases htt : d.title with
      | none =>
        refine ⟨Key.title, ?_, Or.inr (Or.inl ⟨rfl, htt⟩)⟩
        apply hstep
        rw [mkChunk, htt]
      | some t =>
        cases hcoo : d.country with
        | none =>
          refine ⟨Key.country, ?_, Or.inr (Or.inr (Or.inl ⟨rfl, hcoo⟩))⟩
          apply hstep
          rw [mkChunk, htt, hcoo]
        | some co =>
          cases hcaa : d.category with
          | none =>
            refine ⟨Key.category, ?_, Or.inr (Or.inr (Or.inr ⟨rfl, hcaa⟩))⟩
            apply hstep
            rw [mkChunk, htt, hcoo, hcaa]
          | some ca =>
            refine absurd ⟨?_, ?_, ?_, ?_⟩ hw
            · rw [hcc]; simp
            · rw [htt]; simp
            · rw [hcoo]; simp
            · rw [hcaa]; simp

lemma process_documents_ok (size : ℕ) :
    ∀ (docs : List PyDocument), (∀ d ∈ docs, wellFormed d) →
      ∃ groups, process_documents size docs = .ok groups.join ∧
        List.Forall₂ (fun d g => groupGood d g ∧
          ∃ content, d.content = some content ∧
            g.map (fun c => c.text) = split_into_chunks size (clean_text content))
          docs groups := by
  intro docs
  induction docs with
  | nil => intro _; exact ⟨[], rfl, List.Forall₂.nil⟩
  | cons d ds ih =>
    intro h
    rcases docChunks_ok (h d (List.mem_cons_self d ds)) size
      with ⟨g, content, hcon, hdg, hgg, htx⟩
    rcases ih (fun d' hd' => h d' (List.mem_cons_of_mem d hd'))
      with ⟨groups, hp, hf⟩
    refine ⟨g :: groups, ?_, List.Forall₂.cons ⟨hgg, content, hcon, htx⟩ hf⟩
    rw [process_documents, hdg, hp]
    rfl

/-- C7 (confirmed): for every well-formed batch, the chunks produced by
`process_documents` are, per document and in document order, a group whose
`chunk_id`s are exactly `0..totalChunks-1` contiguously, all of whose
members share the same `total_chunks` (the group size) and the same
title/section/source_url/country/category copied from the source
document. -/
theorem C7_chunks_contiguous_shared_metadata (size : ℕ)
    (docs : List PyDocument) (h : ∀ d ∈ docs, wellFormed d) :
    ∃ groups, process_documents size docs = .ok groups.join ∧
      List.Forall₂ (fun d g => groupGood d g) docs groups := by
  rcases process_documents_ok size docs h with ⟨groups, hp, hf⟩
  exact ⟨groups, hp, hf.imp (fun _ _ hdg => hdg.1)⟩

/-- C7 witness: the concrete two-chunk document yields `chunk_id`s `0, 1`
and shared metadata. -/
theorem C7_witness :
    ∃ groups, process_documents 30 [sampleDoc] = .ok groups.join ∧
      List.Forall₂ (fun d g => groupGood d g) [sampleDoc] groups :=
  C7_chunks_contiguous_shared_metadata 30 [sampleDoc] (by decide)

/-- C6 (confirmed): a batch containing a document that misses a required
field makes `process_documents` fail with a `KeyError` (the spec's
`DocumentFormatError`) naming a field that is indeed missing from a
document of the batch; the whole batch aborts — an error is returned
instead of any partial chunk list. -/
theorem C6_missing_field_aborts (size : ℕ) :
    ∀ (docs : List PyDocument), (∃ d ∈ docs, ¬ wellFormed d) →
      ∃ f, process_documents size docs = .error (.missingField f) ∧
        ∃ d ∈ docs, missingOf d f := by
  intro docs
  induction docs with
  | nil =>
    intro h
    rcases h with ⟨d, hd, _⟩
    cases hd
  | cons d ds ih =>
    intro h
    by_cases hw : wellFormed d
    · have h' : ∃ d' ∈ ds, ¬ wellFormed d' := by
        rcases h with ⟨d', hd', hnw⟩
        rcases List.mem_cons.1 hd' with rfl | hmem
        · exact absurd hw hnw
        · exact ⟨d', hmem, hnw⟩
      rcases ih h' with ⟨f, hun, d', hd', hmo⟩
      rcases docChunks_ok hw size with ⟨g, content, _, hdg, _, _⟩
      refine ⟨f, ?_, d', List.mem_cons_of_mem d hd', hmo⟩
      rw [process_documents, hdg, hun]
    · rcases docChunks_err hw size with ⟨f, he, hmo⟩
      refine ⟨f, ?_, d, List.mem_cons_self d ds, hmo⟩
      rw [process_documents, he]

/-- C6 witness: a batch with a document missing `country` aborts with an
error naming a missing required field. -/
theorem C6_witness :
    ∃ f, process_documents 500 [sampleDocNoCountry]
        = .error (.missingField f) ∧
      ∃ d ∈ [sampleDocNoCountry], missingOf d f :=
  C6_missing_field_aborts 500 [sampleDocNoCountry]
    ⟨sampleDocNoCountry, List.mem_cons_self _ _, by decide⟩

/-! ### Lemmas about non-empty chunk texts (C8) -/

lemma mem_dropWhile_of_mem {p : Char → Bool} :
    ∀ {l : List Char} {c : Char}, c ∈ l → p c = false → c ∈ l.dropWhile p := by
  intro l
  induction l with
  | nil => intro c hc _; cases hc
  | cons a rest ih =>
    intro c hc hpc
    rw [List.dropWhile_cons]
    split
    · rcases List.mem_cons.1 hc with rfl | hmem
      · rename_i hpa
        rw [hpa] at hpc
        cases hpc
      · exact ih hmem hpc
    · exact hc

lemma stripWs_ne_nil_of_mem {l : List Char} {c : Char} (hc : c ∈ l)
    (hpc : isPySpace c = false) : stripWs l ≠ [] := by
  unfold stripWs
  have h1 : c ∈ l.dropWhile isPySpace := mem_dropWhile_of_mem hc hpc
  have h2 : c ∈ (l.dropWhile isPySpace).reverse := by simpa using h1
  have h3 : c ∈ (l.dropWhile isPySpace).reverse.dropWhile isPySpace :=
    mem_dropWhile_of_mem h2 hpc
  intro hnil
  rw [List.reverse_eq_nil_iff] at hnil
  rw [hnil] at h3
  cases h3

lemma stripWs_has_nonspace {y : List Char} (h : stripWs y ≠ []) :
    ∃ c ∈ stripWs y, isPySpace c = false := by
  by_contra hall
  push_neg at hall
  apply h
  unfold stripWs at *
  cases hd : (y.dropWhile isPySpace).reverse.dropWhile isPySpace with
  | nil => rfl
  | cons a m =>
    have hh := List.head?_dropWhile_not isPySpace (y.dropWhile isPySpace).reverse
    rw [hd] at hh
    simp only [List.head?_cons] at hh
    have hmem : a ∈ ((y.dropWhile isPySpace).reverse.dropWhile isPySpace).reverse := by
      rw [hd]; simp
    have := hall a hmem
    rw [hh] at this
    cases this rfl

lemma isSentEnd_not_space {c : Char} (h : isSentEnd c = true) :
    isPySpace c = false := by
  unfold isSentEnd at h
  simp only [Bool.or_eq_true, beq_iff_eq] at h
  rcases h with (rfl | rfl) | rfl <;> decide

lemma splitAux_piece_nonspace :
    ∀ (l : List Char) (m : Option (List Char)),
      (∀ acc, m = some acc → acc ++ l = [] ∨ ∃ c ∈ acc ++ l, isPySpace c = false) →
      ∀ p ∈ splitAux l m, p = [] ∨ ∃ c ∈ p, isPySpace c = false := by
  intro l
  induction l with
  | nil =>
    intro m hm p hp
    cases m with
    | some acc =>
      rw [splitAux] at hp
      rw [List.mem_singleton] at hp
      rcases hm acc rfl with h | ⟨c, hc, hcs⟩
      · left
        rw [hp]
        simpa using List.append_eq_nil.1 h |>.1
      · right
        rw [List.append_nil] at hc
        exact ⟨c, by rw [hp]; simpa using hc, hcs⟩
    | none =>
      rw [splitAux] at hp
      rw [List.mem_singleton] at hp
      exact Or.inl hp
  | cons a rest ih =>
    intro m hm p hp
    cases m with
    | some acc =>
      rw [splitAux] at hp
      split at hp
      · rename_i hcond
        rw [Bool.and_eq_true] at hcond
        rcases List.mem_cons.1 hp with rfl | hmem
        · right
          cases acc with
          | nil => cases hcond.2
          | cons b t =>
            have hb : isSentEnd b = true := hcond.2
            exact ⟨b, by simp, isSentEnd_not_space hb⟩
        · exact ih none (by intro acc' h'; cases h') p hmem
      · apply ih (some (a :: acc)) _ p hp
        intro acc' h'
        cases h'
        rcases hm acc rfl with h | ⟨c, hc, hcs⟩
        · rcases List.append_eq_nil.1 h with ⟨_, h2⟩
          cases h2
        · right
          refine ⟨c, ?_, hcs⟩
          rcases List.mem_append.1 hc with h1 | h1
          · exact List.mem_append.2 (Or.inl (List.mem_cons_of_mem a h1))
          · rcases List.mem_cons.1 h1 with rfl | h2
            · exact List.mem_append.2 (Or.inl (List.mem_cons_self c acc))
            · exact List.mem_append.2 (Or.inr h2)
    | none =>
      rw [splitAux] at hp
      split at hp
      · exact ih none (by intro acc' h'; cases h') p hp
      · apply ih (some [a]) _ p hp
        intro acc' h'
        cases h'
        right
        rename_i hna
        refine ⟨a, by simp, ?_⟩
        cases hsp : isPySpace a
        · rfl
        · rw [hsp] at hna
          cases hna rfl

lemma packAux_chunks_ne_nil (size : ℕ) :
    ∀ (sents : List (List Char)) (current : List Char),
      (∀ s ∈ sents, s = [] ∨ ∃ c ∈ s, isPySpace c = false) →
      (current = [] ∨ ∃ c ∈ current, isPySpace c = false) →
      ∀ ch ∈ packAux size current sents, ch ≠ [] := by
  intro sents
  induction sents with
  | nil =>
    intro current hs hc ch hch
    rw [packAux] at hch
    split at hch
    · cases hch
    · rename_i hne
      rw [List.mem_singleton] at hch
      rcases hc with rfl | ⟨c, hcm, hcs⟩
      · simp at hne
      · rw [hch]
        exact stripWs_ne_nil_of_mem hcm hcs
  | cons s rest ih =>
    intro current hs hc ch hch
    have hsrest : ∀ s' ∈ rest, s' = [] ∨ ∃ c ∈ s', isPySpace c = false :=
      fun s' h' => hs s' (List.mem_cons_of_mem s h')
    have hss := hs s (List.mem_cons_self s rest)
    rw [packAux] at hch
    split at hch
    · apply ih _ hsrest _ ch hch
      split
      · exact hss
      · rename_i hne
        rcases hc with rfl | ⟨c, hcm, hcs⟩
        · simp at hne
        · exact Or.inr ⟨c, List.mem_append.2 (Or.inl hcm), hcs⟩
    · split at hch
      · exact ih s hsrest hss ch hch
      · rename_i hne
        rcases List.mem_cons.1 hch with rfl | hmem
        · rcases hc with rfl | ⟨c, hcm, hcs⟩
          · simp at hne
          · exact stripWs_ne_nil_of_mem hcm hcs
        · exact ih s hsrest hss ch hmem

lemma split_chunks_ne_nil_of_nonspace (size : ℕ) {text : List Char}
    (h : ∃ c ∈ text, isPySpace c = false) :
    ∀ ch ∈ split_into_chunks size text, ch ≠ [] := by
  intro ch hch
  unfold split_into_chunks at hch
  split at hch
  · rw [List.mem_singleton] at hch
    rcases h with ⟨c, hcm, _⟩
    rw [hch]
    intro hn
    rw [hn] at hcm
    cases hcm
  · apply packAux_chunks_ne_nil size (splitSentences text) [] _ (Or.inl rfl) ch hch
    apply splitAux_piece_nonspace text (some [])
    intro acc h'
    cases h'
    right
    simpa using h

lemma mkChunk_ok_text {d : PyDocument} {s : List Char} {idx total : ℕ}
    {c : DocumentChunk} (h : mkChunk d s idx total = .ok c) : c.text = s := by
  unfold mkChunk at h
  cases htt : d.title with
  | none => rw [htt] at h; cases h
  | some t =>
    rw [htt] at h
    cases hco : d.country with
    | none => rw [hco] at h; cases h
    | some co =>
      rw [hco] at h
      cases hca : d.category with
      | none => rw [hca] at h; cases h
      | some ca =>
        rw [hca] at h
        cases h
        rfl

lemma buildChunks_texts {d : PyDocument} {total : ℕ} :
    ∀ (ts : List (List Char)) (idx : ℕ) (g : List DocumentChunk),
      buildChunks d total idx ts = .ok g → g.map (fun c => c.text) = ts := by
  intro ts
  induction ts with
  | nil =>
    intro idx g h
    rw [buildChunks] at h
    cases h
    rfl
  | cons s rest ih =>
    intro idx g h
    rw [buildChunks] at h
    cases hmk : mkChunk d s idx total with
    | error e => rw [hmk] at h; cases h
    | ok c =>
      rw [hmk] at h
      cases hbc : buildChunks d total (idx + 1) rest with
      | error e => rw [hbc] at h; cases h
      | ok cs' =>
        rw [hbc] at h
        cases h
        rw [List.map_cons, mkChunk_ok_text hmk, ih (idx + 1) cs' hbc]

lemma docChunks_ok_texts {size : ℕ} {d : PyDocument} {g : List DocumentChunk}
    (h : docChunks size d = .ok g) :
    ∃ content, d.content = some content ∧
      g.map (fun c => c.text) = split_into_chunks size (clean_text content) := by
  unfold docChunks at h
  cases hcc : d.content with
  | none => rw [hcc] at h; cases h
  | some content =>
    rw [hcc] at h
    exact ⟨content, rfl, buildChunks_texts _ 0 g h⟩

/-! ### C8: chunk texts are non-empty -/

/-- C8 counterexample: a well-formed document whose `content` is the empty
string is processed into a single chunk whose `text` is the empty string,
so not every produced chunk has non-empty text. -/
theorem C8_counterexample_empty_content :
    process_documents 500 [sampleDocEmptyContent]
        = .ok [⟨[], ("Empty Act").toList, [], [], ("india").toList,
               ("civil").toList, 0, 1⟩] ∧
    (⟨[], ("Empty Act").toList, [], [], ("india").toList,
      ("civil").toList, 0, 1⟩ : DocumentChunk).text = [] := by
  refine ⟨by decide, rfl⟩

/-- C8 (amended: for documents whose cleaned content is non-empty): every
chunk produced by `process_documents` from documents whose cleaned content
is a non-empty string has non-empty `text`. -/
theorem C8_nonempty_chunk_texts (size : ℕ) :
    ∀ (docs : List PyDocument) (cs : List DocumentChunk),
      process_documents size docs = .ok cs →
      (∀ d ∈ docs, ∀ content, d.content = some content →
        clean_text content ≠ []) →
      ∀ c ∈ cs, c.text ≠ [] := by
  intro docs
  induction docs with
  | nil =>
    intro cs hok _ c hc
    rw [process_documents] at hok
    cases hok
    cases hc
  | cons d ds ih =>
    intro cs hok hne c hc
    rw [process_documents] at hok
    cases hdc : docChunks size d with
    | error e => rw [hdc] at hok; cases hok
    | ok g =>
      rw [hdc] at hok
      cases hrest : process_documents size ds with
      | error e => rw [hrest] at hok; cases hok
      | ok rest =>
        rw [hrest] at hok
        cases hok
        rcases List.mem_append.1 hc with hg | hr
        · rcases docChunks_ok_texts hdc with ⟨content, hcon, htx⟩
          have hmm : c.text ∈ g.map (fun c => c.text) :=
            List.mem_map_of_mem _ hg
          rw [htx] at hmm
          have hcl : clean_text content ≠ [] :=
            hne d (List.mem_cons_self d ds) content hcon
          have hnsp : ∃ ch ∈ clean_text content, isPySpace ch = false :=
            stripWs_has_nonspace (y := (collapseAux false content).filter isPrintable)
              hcl
          exact split_chunks_ne_nil_of_nonspace size hnsp c.text hmm
        · exact ih rest hrest
            (fun d' hd' => hne d' (List.mem_cons_of_mem d hd')) c hr

/-- C8 witness: a concrete document with non-empty cleaned content yields
only chunks with non-empty text. -/
theorem C8_witness :
    (⟨("One longer sentence here. Two. Three.").toList,
        ("Immigration Act").toList, ("s1").toList, [], ("india").toList,
        ("immigration").toList, 0, 1⟩ : DocumentChunk).text ≠ [] :=
  C8_nonempty_chunk_texts 500 [sampleDoc]
    [⟨("One longer sentence here. Two. Three.").toList,
      ("Immigration Act").toList, ("s1").toList, [], ("india").toList,
      ("immigration").toList, 0, 1⟩] (by decide)
    (by
      intro d hd content hcon
      rw [List.mem_singleton] at hd
      rw [hd] at hcon
      rw [show sampleDoc.content
          = some (("One longer sentence here. Two. Three.").toList) from rfl] at hcon
      cases hcon
      decide)
    _ (List.mem_singleton_self _)

/-! ### Lemmas for the split refinement (C4) -/

lemma joinSp_singleton (s : List Char) : joinSp [s] = s := rfl

lemma joinSp_append_singleton {group : List (List Char)} (hg : group ≠ [])
    (s : List Char) : joinSp (group ++ [s]) = joinSp group ++ ' ' :: s := by
  cases group with
  | nil => cases hg rfl
  | cons g rest =>
    show List.foldl (fun a s' => a ++ ' ' :: s') g (rest ++ [s])
      = List.foldl (fun a s' => a ++ ' ' :: s') g rest ++ ' ' :: s
    rw [List.foldl_append]
    rfl

lemma splitAux_onlyLast :
    ∀ (l : List Char) (m : Option (List Char)),
      ∀ p ∈ (splitAux l m).dropLast, p ≠ [] := by
  intro l
  induction l with
  | nil =>
    intro m p hp
    cases m <;> simp [splitAux] at hp
  | cons c rest ih =>
    intro m p hp
    cases m with
    | some acc =>
      rw [splitAux] at hp
      split at hp
      · rename_i hcond
        rw [Bool.and_eq_true] at hcond
        cases hs : splitAux rest none with
        | nil => exact absurd hs (splitAux_ne_nil rest none)
        | cons q t =>
          rw [hs] at hp
          rw [show (acc.reverse :: q :: t).dropLast
              = acc.reverse :: (q :: t).dropLast from rfl] at hp
          rcases List.mem_cons.1 hp with rfl | hmem
          · cases acc with
            | nil => cases hcond.2
            | cons b tb => simp
          · rw [← hs] at hmem
            exact ih none p hmem
      · exact ih (some (c :: acc)) p hp
    | none =>
      rw [splitAux] at hp
      split at hp
      · exact ih none p hp
      · exact ih (some [c]) p hp

lemma stripWs_length_le (l : List Char) : (stripWs l).length ≤ l.length := by
  unfold stripWs
  have h1 := (List.dropWhile_sublist (l := l) isPySpace).length_le
  have h2 := (List.dropWhile_sublist (l := (l.dropWhile isPySpace).reverse)
    isPySpace).length_le
  simp only [List.length_reverse] at *
  omega

lemma packAux_oversized (size : ℕ) (P : List Char → Prop) :
    ∀ (sents : List (List Char)) (current : List Char),
      (∀ s ∈ sents, P s) →
      (current.length ≤ size ∨ P current) →
      ∀ ch ∈ packAux size current sents,
        ch.length ≤ size ∨ ∃ s, P s ∧ ch = stripWs s := by
  intro sents
  induction sents with
  | nil =>
    intro current _ hc ch hch
    rw [packAux] at hch
    split at hch
    · cases hch
    · rw [List.mem_singleton] at hch
      rcases hc with h | h
      · exact Or.inl (by rw [hch]; exact le_trans (stripWs_length_le current) h)
      · exact Or.inr ⟨current, h, hch⟩
  | cons s rest ih =>
    intro current hs hc ch hch
    have hsrest : ∀ s' ∈ rest, P s' := fun s' h' => hs s' (List.mem_cons_of_mem s h')
    have hPs : P s := hs s (List.mem_cons_self s rest)
    rw [packAux] at hch
    split at hch
    · rename_i hcond
      apply ih _ hsrest _ ch hch
      split
      · exact Or.inr hPs
      · exact Or.inl (by simpa using hcond)
    · split at hch
      · exact ih s hsrest (Or.inr hPs) ch hch
      · rcases List.mem_cons.1 hch with rfl | hmem
        · rcases hc with h | h
          · exact Or.inl (le_trans (stripWs_length_le current) h)
          · exact Or.inr ⟨current, h, rfl⟩
        · exact ih s hsrest (Or.inr hPs) ch hmem

lemma pack_eq_spec (size : ℕ) :
    ∀ (sents : List (List Char)) (group : List (List Char)),
      (∀ s ∈ sents.dropLast, s ≠ []) →
      ((joinSp group) = [] → group = [] ∨ sents = []) →
      packAux size (joinSp group) sents
        = (specPackAux size group sents).map (fun g => stripWs (joinSp g)) := by
  intro sents
  induction sents with
  | nil =>
    intro group _ _
    rw [packAux, specPackAux]
    by_cases hj : (joinSp group).isEmpty
    · rw [if_pos hj, if_pos hj]
      rfl
    · rw [if_neg hj, if_neg hj]
      rfl
  | cons s rest ih =>
    intro group hol hemp
    have hol' : ∀ s' ∈ rest.dropLast, s' ≠ [] := by
      cases rest with
      | nil => intro s' h'; cases h'
      | cons r0 t =>
        intro s' h'
        exact hol s' (by
          rw [show (s :: r0 :: t).dropLast = s :: (r0 :: t).dropLast from rfl]
          exact List.mem_cons_of_mem s h')
    have hrest_of_s_nil : s = [] → rest = [] := by
      intro hsnil
      cases rest with
      | nil => rfl
      | cons r0 t =>
        exact absurd hsnil (hol s (by
          rw [show (s :: r0 :: t).dropLast = s :: (r0 :: t).dropLast from rfl]
          exact List.mem_cons_self s _))
    have hrecs : packAux size s rest
        = (specPackAux size [s] rest).map (fun g => stripWs (joinSp g)) := by
      have h := ih [s] hol' (by
        intro hsnil
        rw [joinSp_singleton] at hsnil
        exact Or.inr (hrest_of_s_nil hsnil))
      rw [joinSp_singleton] at h
      exact h
    rw [packAux, specPackAux]
    by_cases hcond : (joinSp group).length + s.length + 1 ≤ size
    · rw [if_pos hcond, if_pos hcond]
      by_cases hje : (joinSp group).isEmpty
      · have hgnil : group = [] := by
          rcases hemp (List.isEmpty_iff.1 hje) with h | h
          · exact h
          · cases h
        rw [if_pos hje, hgnil]
        rw [show ([] : List (List Char)) ++ [s] = [s] from rfl]
        exact hrecs
      · have hgne : group ≠ [] := by
          intro h
          rw [h] at hje
          exact hje rfl
        rw [if_neg hje]
        have h := ih (group ++ [s]) hol' (by
          intro hnil
          rw [joinSp_append_singleton hgne s] at hnil
          cases List.append_eq_nil.1 hnil |>.2)
        rw [joinSp_append_singleton hgne s] at h
        exact h
    · rw [if_neg hcond, if_neg hcond]
      by_cases hje : (joinSp group).isEmpty
      · rw [if_pos hje, if_pos hje]
        exact hrecs
      · rw [if_neg hje, if_neg hje]
        rw [List.map_cons, hrecs]

/-! ### C4: the chunk splitting policy -/

/-- C4 (confirmed): `split(text, maxSize)` returns `[text]` unchanged when
`len(text) <= maxSize`; otherwise it equals the specification's greedy
packing of whole sentences (groups packed while
`currentLength + nextSentenceLength + 1 <= maxSize`, the chunk closing and
a new group starting with the sentence that would exceed the bound, chunks
emitted as their group joined by single spaces and trimmed); and any
emitted chunk longer than `maxSize` is a single (trimmed) sentence of the
sentence split — a sentence is never split mid-sentence. -/
theorem C4_split_greedy_sentence_policy (size : ℕ) (text : List Char) :
    (text.length ≤ size → split_into_chunks size text = [text]) ∧
    split_into_chunks size text = splitSpec size text ∧
    (∀ ch ∈ split_into_chunks size text, size < ch.length →
      ∃ s ∈ splitSentences text, ch = stripWs s) := by
  refine ⟨?_, ?_, ?_⟩
  · intro h
    unfold split_into_chunks
    rw [if_pos h]
  · unfold split_into_chunks splitSpec
    by_cases h : text.length ≤ size
    · rw [if_pos h, if_pos h]
    · rw [if_neg h, if_neg h]
      have := pack_eq_spec size (splitSentences text) []
        (splitAux_onlyLast text (some [])) (fun _ => Or.inl rfl)
      exact this
  · intro ch hch hlen
    unfold split_into_chunks at hch
    split at hch
    · rename_i h
      rw [List.mem_singleton] at hch
      rw [hch] at hlen
      omega
    · have hover := packAux_oversized size (fun s => s ∈ splitSentences text)
        (splitSentences text) [] (fun _ hs => hs) (Or.inl (by simp)) ch hch
      rcases hover with h | ⟨s, hs, heq⟩
      · omega
      · exact ⟨s, hs, heq⟩

/-- C4 witness: a short text is returned whole, and on a concrete long
text the implementation agrees with the specification's greedy packing. -/
theorem C4_witness :
    split_into_chunks 500 ("Short.").toList = [("Short.").toList] ∧
    split_into_chunks 9 ("One. Two. Three.").toList
      = splitSpec 9 ("One. Two. Three.").toList :=
  ⟨(C4_split_greedy_sentence_policy 500 (("Short.").toList)).1 (by decide),
   (C4_split_greedy_sentence_policy 9 (("One. Two. Three.").toList)).2.1⟩
